import Mathlib

/-!
Verification model of the dgraph-orm object mapper, predicate collections,
predicate declaration and schema builder.

JavaScript object identity is modelled by natural-number addresses into
explicit stores.  Raw records, raw arrays, class instances and predicate
collections each live in their own association-list store, so that in-place
mutation, identity-keyed memoisation and identity-keyed facet bindings can be
expressed faithfully.
-/

/-- JS object identity token. -/
abbrev Addr := Nat

/-- Association-list lookup keyed by decidable equality (models `Map.get`,
`WeakMap.get` and JS property reads). -/
def lookA {α β : Type} [DecidableEq α] : List (α × β) → α → Option β
  | [], _ => none
  | (k, v) :: l, a => if k = a then some v else lookA l a

/-- Association-list write: replace the first binding in place, or append a
new binding (models `Map.set` and JS property assignment, which keeps the
insertion position of an existing key). -/
def setA {α β : Type} [DecidableEq α] : List (α × β) → α → β → List (α × β)
  | [], a, b => [(a, b)]
  | (k, v) :: l, a, b => if k = a then (a, b) :: l else (k, v) :: setA l a b

/-- Association-list removal of every binding of a key (models `Map.delete`
and the JS `delete` operator). -/
def removeA {α β : Type} [DecidableEq α] : List (α × β) → α → List (α × β)
  | [], _ => []
  | (k, v) :: l, a => if k = a then removeA l a else (k, v) :: removeA l a

/-- Key of a facet binding: (scope key = predicate property name, owner
instance identity, child instance identity). -/
abbrev FacetKey := String × Addr × Addr

/-- Modelled from the spec: `FacetStorage` (spec section 4.2).  The file
`utils/facet-storage` is imported by the predicate implementation but is not
under `src/`.  It is an identity-keyed association table from
(scope key, owner, child) to a facet instance: `attach` overwrites any
existing binding for the triple, `get` looks a binding up, `detach` removes
it. -/
abbrev FacetStorage := List (FacetKey × Addr)

/-- Operation `FacetStorage.attach(namespace, parent, node, facet)`: overwrites any
existing binding of the triple. -/
def FacetStorage.attach (fs : FacetStorage) (k : FacetKey) (v : Addr) : FacetStorage :=
  (k, v) :: removeA fs k

/-- Operation `FacetStorage.get(namespace, parent, node)`. -/
def FacetStorage.getF (fs : FacetStorage) (k : FacetKey) : Option Addr :=
  lookA fs k

/-- Operation `FacetStorage.detach(namespace, parent, node)`: removes the binding if
present, no-op otherwise. -/
def FacetStorage.detachF (fs : FacetStorage) (k : FacetKey) : FacetStorage :=
  removeA fs k

/-- State of one `PredicateImpl` collection (src/unnamed/part_000): the staged
facet `_facet`, the scope key `_namespace`, the owner identity `_parent`, the
live backing array `_data`, and the added-element set `_diff`.

src/unnamed/part_001 is an alternate revision of the same class whose only
difference is that the added set (and an unused deleted set) are stored in
WeakMaps keyed by the collection object and initialised to empty sets at
construction; its `withFacet`, `getFacet`, `add`, `update`, `get`, `getDiff`,
`detach` and `delete` behaviour is identical to part_000, so this model
covers both revisions.

Facet values are object instances in the source, so JS truthiness of
`this._facet` coincides with the facet slot being non-null; the slot is
modelled as an `Option Addr` with `none` for `null`. -/
structure PredicateImpl where
  _namespace : String
  _parent : Addr
  _facet : Option Addr
  _data : List Addr
  _diff : List Addr
deriving DecidableEq

/-- Fresh collection as constructed by `new PredicateImpl(namespace, parent,
data)`: no staged facet, empty added set. -/
def PredicateImpl.mk0 (ns : String) (parent : Addr) (data : List Addr) : PredicateImpl :=
  { _namespace := ns, _parent := parent, _facet := none, _data := data, _diff := [] }

/-- Method `withFacet(facet)`: stages the facet (or `null`) and returns the
collection. -/
def PredicateImpl.withFacet (p : PredicateImpl) (facet : Option Addr) : PredicateImpl :=
  { p with _facet := facet }

/-- Method `getFacet(node)`: delegates to the facet storage under this collection
scope key and owner. -/
def PredicateImpl.getFacet (p : PredicateImpl) (fs : FacetStorage) (node : Addr) : Option Addr :=
  FacetStorage.getF fs (p._namespace, p._parent, node)

/-- JS `Set.prototype.add`: append if not already present. -/
def setAdd (l : List Addr) (x : Addr) : List Addr :=
  if x ∈ l then l else l ++ [x]

/-- Method `add(node)`: if a facet is staged, attach it to (namespace, parent, node)
and clear the stage; then push the node onto the backing array and record it
in the added set. -/
def PredicateImpl.add (p : PredicateImpl) (fs : FacetStorage) (node : Addr) :
    PredicateImpl × FacetStorage :=
  match p._facet with
  | some f =>
      ({ p with _facet := none, _data := p._data ++ [node], _diff := setAdd p._diff node },
        FacetStorage.attach fs (p._namespace, p._parent, node) f)
  | none =>
      ({ p with _data := p._data ++ [node], _diff := setAdd p._diff node }, fs)

/-- Method `update(node)`: with no staged facet, detach any existing binding for the
node; with a staged facet, attach it without clearing the stage.  Neither
branch touches the backing array or the added set. -/
def PredicateImpl.update (p : PredicateImpl) (fs : FacetStorage) (node : Addr) :
    PredicateImpl × FacetStorage :=
  match p._facet with
  | none => (p, FacetStorage.detachF fs (p._namespace, p._parent, node))
  | some f => (p, FacetStorage.attach fs (p._namespace, p._parent, node) f)

/-- Method `get()`: the live backing array. -/
def PredicateImpl.get (p : PredicateImpl) : List Addr :=
  p._data

/-- Method `getDiff()`: the added-element set. -/
def PredicateImpl.getDiff (p : PredicateImpl) : List Addr :=
  p._diff

/-- Method `detach(node)`: logs and then throws `new Error(..)`; no state is
modified, so the model returns only the error. -/
def PredicateImpl.detach (_p : PredicateImpl) (_fs : FacetStorage) (_node : Addr) :
    Except String (PredicateImpl × FacetStorage) :=
  Except.error "Not implemented"

/-- Method `delete(node)`: logs and then throws `new Error(..)`; no state is
modified, so the model returns only the error. -/
def PredicateImpl.delete (_p : PredicateImpl) (_fs : FacetStorage) (_node : Addr) :
    Except String (PredicateImpl × FacetStorage) :=
  Except.error "Not implemented"

/-! ## Predicate declaration (src/src/decorator/predicate.ts) -/

/-- A declared predicate target type: one of the scalar `PredicateType` enum
values (nonempty string constants in the source) or a node class
constructor. -/
inductive DeclType where
  | scalar (s : String)
  | ctor (c : String)
deriving DecidableEq

/-- The `type` field of `Predicate.IOptions`: a single type or an array of
types (the array is the cardinality marker). -/
inductive OptionsType where
  | single (t : DeclType)
  | arr (ts : List DeclType)
deriving DecidableEq

/-- Options record `Predicate.IOptions`. -/
structure PredicateOptions where
  type : Option OptionsType
  name : Option String
deriving DecidableEq

/-- Result of `Private.sanitizePredicateType`. -/
structure SanitizedPredicateType where
  type : Option DeclType
  isArray : Bool
  isNodePredicate : Bool
deriving DecidableEq

/-- Mirror of `Private.sanitizePredicateType` (src/src/decorator/predicate.ts
lines 97-123).  The reflected design type together with the conversion done
by `PredicateTypeUtils.convertReflectedToPredicateType` (whose source file is
not under `src/`) is abstracted as the `reflected` argument: `some s` models
a reflected type convertible to the scalar predicate type `s`, and `none`
models both missing reflection metadata and an unconvertible reflected type
- in either case the fallback yields no usable type and the declaration
fails.  Throws are modelled as `Except.error`. -/
def sanitizePredicateType (options : PredicateOptions) (reflected : Option String) :
    Except String SanitizedPredicateType :=
  match options.type with
  | some (OptionsType.arr ts) =>
      match ts with
      | [t] =>
          Except.ok { type := some t, isArray := true,
                      isNodePredicate := match t with | DeclType.ctor _ => true | _ => false }
      | _ => Except.error "Type definition array should contain exactly 1 type"
  | some (OptionsType.single t) =>
      Except.ok { type := some t, isArray := false, isNodePredicate := false }
  | none =>
      Except.ok { type := reflected.map DeclType.scalar, isArray := false,
                  isNodePredicate := false }

/-- The metadata essentials registered by a successful `Predicate`
declaration. -/
structure RegisteredPredicate where
  typeR : DeclType
  name : String
  isArray : Bool
deriving DecidableEq

/-- Mirror of the `Predicate` decorator body (src/src/decorator/predicate.ts
lines 11-63) up to the metadata registration: it sanitizes the declared type,
throws when no type could be resolved, defaults the predicate name to
`NodeName.propertyName`, and registers the metadata. -/
def Predicate.decorate (nodeName propertyName : String) (options : PredicateOptions)
    (reflected : Option String) : Except String RegisteredPredicate :=
  match sanitizePredicateType options reflected with
  | Except.error e => Except.error e
  | Except.ok s =>
      match s.type with
      | none =>
          Except.error ("Cannot infer the type for predicate " ++ propertyName ++
            " on node " ++ nodeName ++
            ". Please try to explicitly define a type in the predicate options")
      | some t =>
          Except.ok { typeR := t,
                      name := options.name.getD (nodeName ++ "." ++ propertyName),
                      isArray := s.isArray }

/-- Whether an `Except` is an error outcome. -/
def isErr {ε α : Type} : Except ε α → Bool
  | Except.error _ => true
  | Except.ok _ => false

/-! ## Schema builder

Modelled from the spec: `SchemaBuilder` (spec section 4.6); its source file
is not under `src/` - only the expected-output test (src/unnamed/part_003).
Registry entries are kept in first-registration order.  Node-typed
predicates contribute no line of their own: the worked example of spec
section 8 (= the expected string of the test) shows the `works: Work[]`
predicate absent from both the type block and the flat section, which fixes
the treatment left ambiguous by the prose. -/

/-- A scalar property descriptor as the schema builder consumes it:
property name, optional explicitly-overridden external name, scalar kind,
array cardinality, optional index kind. -/
structure SchemaProperty where
  propertyName : String
  externalName : Option String
  ptype : String
  isArray : Bool
  indexKind : Option String
deriving DecidableEq

/-- A node-typed predicate descriptor (target is another node type). -/
structure SchemaNodePredicate where
  propertyName : String
  targetType : String
deriving DecidableEq

/-- A type descriptor: type name plus its ordered scalar properties and
node-typed predicates.  The uid field does not appear in schema output. -/
structure SchemaType where
  name : String
  props : List SchemaProperty
  nodePreds : List SchemaNodePredicate
deriving DecidableEq

/-- Globally visible name of a scalar property: the external name when
explicitly overridden, otherwise the generated `TypeName.propertyName`. -/
def schemaName (t : SchemaType) (p : SchemaProperty) : String :=
  p.externalName.getD (t.name ++ "." ++ p.propertyName)

/-- Rendered type of a property, bracketed for array cardinality. -/
def schemaTypeText (p : SchemaProperty) : String :=
  if p.isArray then "[" ++ p.ptype ++ "]" else p.ptype

/-- One type block: `type Name {` then one indented line per scalar property,
then `}`; every line newline-terminated. -/
def schemaBlock (t : SchemaType) : String :=
  "type " ++ t.name ++ " \x7b\n" ++
    String.join (t.props.map (fun p => "  " ++ schemaName t p ++ ": " ++ schemaTypeText p ++ "\n")) ++
    "\x7d\n"

/-- One flat predicate-type line: `name:type` or `@index(kind) name:type`,
newline-terminated. -/
def schemaFlatLine (t : SchemaType) (p : SchemaProperty) : String :=
  (match p.indexKind with
   | some k => "@index(" ++ k ++ ") "
   | none => "") ++ schemaName t p ++ ":" ++ schemaTypeText p ++ "\n"

/-- Flat predicate-type lines over all types in first-registration order,
deduplicated by the generated/external name. -/
def schemaFlatLines (reg : List SchemaType) : List String :=
  (reg.foldl (fun acc t =>
      t.props.foldl (fun (acc : List String × List String) p =>
          if schemaName t p ∈ acc.2 then acc
          else (acc.1 ++ [schemaFlatLine t p], acc.2 ++ [schemaName t p]))
        acc)
    ([], [])).1

/-- Operation `SchemaBuilder.build()`: all type blocks in first-registration order,
then the deduplicated flat predicate-type lines; the whole output ends with
a trailing newline because every line is newline-terminated. -/
def SchemaBuilder.build (reg : List SchemaType) : String :=
  String.join (reg.map schemaBlock) ++ String.join (schemaFlatLines reg)

/-- The `Work` type of the canonical example: `id` (uid) and `name` with no
explicit external name. -/
def workType : SchemaType :=
  { name := "Work",
    props := [{ propertyName := "name", externalName := none, ptype := "string",
                isArray := false, indexKind := none }],
    nodePreds := [] }

/-- The `Person` type of the canonical example: `name` with external name
`name` and a hash index, `hobbies : [string]`, and the node-typed predicate
`works : Work[]`. -/
def personType : SchemaType :=
  { name := "Person",
    props := [{ propertyName := "name", externalName := some "name", ptype := "string",
                isArray := false, indexKind := some "hash" },
              { propertyName := "hobbies", externalName := none, ptype := "string",
                isArray := true, indexKind := none }],
    nodePreds := [{ propertyName := "works", targetType := "Work" }] }

/-! ## Raw data heap (object mapper input)

Raw records and raw arrays are mutable JS objects; both carry identity.
`expand` (phase A) mutates records in place; the transform (phase B)
memoises on raw-array identity. -/

/-- A JSON field value of a raw record: scalar, or a raw array by
reference. -/
inductive Val where
  | vs (s : String)
  | vi (n : Int)
  | vb (b : Bool)
  | varr (a : Addr)
deriving DecidableEq

/-- An element of a raw array: a record reference or an inline scalar. -/
inductive RElem where
  | erec (a : Addr)
  | es (s : String)
  | ei (n : Int)
deriving DecidableEq

/-- A raw record: its fields in insertion order (JS object keys are unique;
the model does not enforce that, and lookups see the first binding exactly as
`lookA` does). -/
abbrev Record := List (String × Val)

/-- The mutable raw heap that phase A works on: the record store, the array
store, and the visited set of the expansion (a JS `Set<string>` of visiting
keys).  Uids are modelled as string-valued `uid` fields, matching the string
uid convention of dgraph query results. -/
structure ESt where
  recs : List (Addr × Record)
  arrs : List (Addr × List RElem)
  visited : List String
deriving DecidableEq

/-- Record lookup in the heap. -/
def lookupRec (h : ESt) (a : Addr) : Option Record :=
  lookA h.recs a

/-- In-place replacement of a record. -/
def setRec (h : ESt) (a : Addr) (r : Record) : ESt :=
  { h with recs := setA h.recs a r }

/-- Elements of a raw array (empty for a dangling reference, which cannot
arise from a JS object graph). -/
def arrElems (h : ESt) (b : Addr) : List RElem :=
  (lookA h.arrs b).getD []

/-- Field read on a record of the heap. -/
def lookupField (h : ESt) (a : Addr) (k : String) : Option Val :=
  match lookupRec h a with
  | some r => lookA r k
  | none => none

/-- The `uid` field of a record when it is a string (the only shape under
which the resource index, a string-keyed `Map`, can match it). -/
def recUid (r : Record) : Option String :=
  match lookA r "uid" with
  | some (Val.vs u) => some u
  | _ => none

/-- JS template-string text of a field value, as used inside the visiting
key (an array value never usefully appears in a uid position; it is rendered
as the undefined text as a modelling shortcut). -/
def valText : Val → String
  | Val.vs s => s
  | Val.vi n => toString n
  | Val.vb b => cond b "true" "false"
  | Val.varr _ => "undefined"

/-- Text of `source.uid` inside the visiting key: the text of the `uid`
field, or `undefined` when the record has none. -/
def uidKeyText (r : Record) : String :=
  match lookA r "uid" with
  | some v => valText v
  | none => "undefined"

/-- Text of `x.uid` for the record at an address (dangling or scalar yields
the undefined text, as reading `.uid` off a primitive does in JS). -/
def uidTextAt (h : ESt) (a : Addr) : String :=
  match lookupRec h a with
  | some r => uidKeyText r
  | none => "undefined"

/-- The visiting key `parentUid:fieldName:childUid` of one edge, built by
string interpolation exactly as in the source. -/
def mkVKey (h : ESt) (a : Addr) (k : String) (e : RElem) : String :=
  uidTextAt h a ++ ":" ++ k ++ ":" ++
    (match e with
     | RElem.erec ca => uidTextAt h ca
     | _ => "undefined")

/-- Semantics of `Object.assign(dst, src)`: copy the fields of `src` over `dst` in order,
overwriting in place, appending fresh keys; shallow (array references are
copied, not cloned). -/
def assignFields (dst src : Record) : Record :=
  src.foldl (fun d kv => setA d kv.1 kv.2) dst

/-- The merge step at the head of `expand` (src/unnamed/part_002 lines
206-208): when the resource index has the record uid, merge the indexed
record into the visited record in place; otherwise (no uid, uid not indexed,
or - impossible in JS - a dangling index entry) leave the heap untouched. -/
def mergeStep (res : List (String × Addr)) (h : ESt) (a : Addr) : ESt :=
  match lookupRec h a with
  | none => h
  | some r =>
      match recUid r with
      | none => h
      | some u =>
          match lookA res u with
          | none => h
          | some b =>
              match lookupRec h b with
              | none => h
              | some rb => setRec h a (assignFields r rb)

/-- Field-name snapshot taken by `Object.keys(source)` right after the merge
step. -/
def recKeys (h : ESt) (a : Addr) : List String :=
  match lookupRec h a with
  | some r => r.map Prod.fst
  | none => []

/-- The `source[key].forEach(node => ..)` loop of `expand`: build the
visiting key, skip an already-visited edge, otherwise record it and descend
via `go`, the recursive expansion at the remaining fuel (descending into an
inline scalar is a no-op beyond the visited entry, as in JS).  The returned
key list logs the keys at which a child-record descent happened (ghost
output used to state the one-descent-per-edge property). -/
def expandElems (go : ESt → Addr → Option (ESt × List String)) (a : Addr) (k : String) :
    List RElem → ESt → Option (ESt × List String)
  | [], h => some (h, [])
  | e :: es, h =>
      let vk := mkVKey h a k e
      if vk ∈ h.visited then expandElems go a k es h
      else
        let h1 : ESt := { h with visited := vk :: h.visited }
        match e with
        | RElem.erec ca =>
            match go h1 ca with
            | none => none
            | some (h2, log1) =>
                match expandElems go a k es h2 with
                | none => none
                | some (h3, log2) => some (h3, vk :: (log1 ++ log2))
        | _ => expandElems go a k es h1

/-- The `Object.keys(source).forEach` loop of `expand`: skip the reserved
type-tag key and non-array fields (fields are re-read live, as a re-entrant
expansion of this record may have replaced them). -/
def expandKeys (go : ESt → Addr → Option (ESt × List String)) (a : Addr) :
    List String → ESt → Option (ESt × List String)
  | [], h => some (h, [])
  | k :: ks, h =>
      if k = "dgraph.type" then expandKeys go a ks h
      else
        match lookupField h a k with
        | some (Val.varr b) =>
            match expandElems go a k (arrElems h b) h with
            | none => none
            | some (h2, log1) =>
                match expandKeys go a ks h2 with
                | none => none
                | some (h3, log2) => some (h3, log1 ++ log2)
        | _ => expandKeys go a ks h

/-- Phase A `expand` on one record (src/unnamed/part_002 lines 205-229),
fuelled: merge the indexed record in when the uid is indexed, then walk every
array-valued field except the reserved `dgraph.type` key, descending into
each element whose visiting key is fresh.  Returns the updated heap together
with the descent log.  `none` means fuel ran out; the source has no failure
path here. -/
def expand (res : List (String × Addr)) : Nat → ESt → Addr → Option (ESt × List String)
  | 0, _, _ => none
  | f + 1, h, a =>
      let h1 := mergeStep res h a
      expandKeys (fun h2 a2 => expand res f h2 a2) a (recKeys h1 a) h1

/-! ## Metadata registry and instance-side state (phase B) -/

/-- Predicate metadata as the transform consumes it: decorated property
name, external predicate name (`pred.args.name`), target class name
(`pred.args.type()`), and the facet class name when the predicate has one. -/
structure PredMeta where
  propertyName : String
  name : String
  typeCls : String
  facetCls : Option String
deriving DecidableEq

/-- The metadata registry (`MetadataStorage.Instance`) as read by the
transform: per class name its scalar properties (property name, external
name), its predicates, and per facet class name its facet property names.
`lookA .. = none` models `Map.get` returning `undefined`. -/
structure Reg where
  properties : List (String × List (String × String))
  predicates : List (String × List PredMeta)
  facets : List (String × List String)
deriving DecidableEq

/-- A class instance produced by the transform: its class name, its plain
data fields (copied off the raw record by `plainToClass`), and the accessor
pairs installed by `trackPredicate` via `Object.defineProperty` (property
name mapped to the stored predicate-collection address, `none` while the
closure variable `storedValue` is still unset). -/
structure Inst where
  className : String
  fields : List (String × Val)
  accessors : List (String × Option Addr)
deriving DecidableEq

/-- The instance-side state threaded through the transform: the instance
store, the predicate-collection store, the `WeakMap` memoisation table from
raw-array identity to the produced instance array, the diff-tracker state
(tracked property names and dirty property names per instance identity), the
facet storage, and the fresh-address counters. -/
structure TSt where
  insts : List (Addr × Inst)
  preds : List (Addr × PredicateImpl)
  memo : List (Addr × List Addr)
  tracked : List (Addr × List String)
  dirty : List (Addr × List String)
  fstore : FacetStorage
  nextI : Addr
  nextP : Addr
deriving DecidableEq

/-- The empty instance-side state a fresh `ObjectMapperBuilder.build` run
starts from (in particular `Private.transform` allocates a fresh `WeakMap`,
so the memo table starts empty). -/
def initTSt : TSt :=
  { insts := [], preds := [], memo := [], tracked := [], dirty := [],
    fstore := [], nextI := 0, nextP := 0 }

/-- Modelled from the spec: `DiffTracker.diffOf` (spec section 4.3) - the
`mutation/tracker` source file is not under `src/`.  The set of dirty scalar
property names of an instance; an untracked or never-written instance
reports the empty set. -/
def diffOf (st : TSt) (ia : Addr) : List String :=
  (lookA st.dirty ia).getD []

/-- Modelled from the spec: `DiffTracker.trackProperty` (spec section 4.3).
Installs change observation for a scalar property name on an instance;
installing does not mark anything dirty. -/
def trackProperty (st : TSt) (ia : Addr) (propName : String) : TSt :=
  { st with tracked := setA st.tracked ia (((lookA st.tracked ia).getD []) ++ [propName]) }

/-- Modelled from the spec: `DiffTracker.purgeInstance` (spec section 4.3).
Clears every dirty mark of the instance, making the current values the new
baseline. -/
def purgeInstance (st : TSt) (ia : Addr) : TSt :=
  { st with dirty := setA st.dirty ia [] }

/-- JS `Set.prototype.add` on strings. -/
def setAdd0 (l : List String) (x : String) : List String :=
  if x ∈ l then l else l ++ [x]

/-- Modelled from the spec: a scalar property assignment observed by the
diff tracker (spec section 4.3: the first assignment after tracking starts
marks the property dirty).  During a `build` run every plain field write
happens at instance creation, before tracking is installed on that instance,
so `build` itself never calls this; it is the post-load mutation entry
point. -/
def assignTracked (st : TSt) (ia : Addr) (propName : String) (v : Val) : TSt :=
  let marked :=
    if propName ∈ (lookA st.tracked ia).getD [] then
      setA st.dirty ia (setAdd0 ((lookA st.dirty ia).getD []) propName)
    else st.dirty
  { st with
    dirty := marked,
    insts := match lookA st.insts ia with
      | some i => setA st.insts ia { i with fields := setA i.fields propName v }
      | none => st.insts }

/-! ## Phase B transform (src/unnamed/part_002, `Private` namespace) -/

/-- Instance creation performed by `plainToClass(cls, plain, { exposeAll,
enableCircularCheck })` over one raw array: one fresh instance per element,
its plain fields copied shallowly off the raw record (an inline scalar
element yields an instance with no fields).  All field writes happen here,
before any diff tracking is installed on the fresh instance, exactly as in
the source where `plainToClass` runs before `trackProperties`. -/
def mkInsts (cls : String) (es : List RElem) (h : ESt) (st : TSt) : List Addr × TSt :=
  match es with
  | [] => ([], st)
  | e :: es =>
      let ia := st.nextI
      let fields : List (String × Val) :=
        match e with
        | RElem.erec ra => (lookA h.recs ra).getD []
        | _ => []
      let st1 : TSt :=
        { st with
          insts := (ia, { className := cls, fields := fields, accessors := [] }) :: st.insts,
          nextI := st.nextI + 1 }
      let p := mkInsts cls es h st1
      (ia :: p.1, p.2)

/-- Mirror of `Private.trackProperties`: look the class properties up in the registry
(`undefined` means skip) and install a diff tracker on each scalar
property. -/
def trackProps (reg : Reg) (st : TSt) (ia : Addr) : TSt :=
  match lookA st.insts ia with
  | none => st
  | some i =>
      match lookA reg.properties i.className with
      | none => st
      | some props => props.foldl (fun st pr => trackProperty st ia pr.1) st

/-- The `Object.defineProperty` part of `Private.trackPredicate`: replace the
plain data property by the accessor pair; the closure variable `storedValue`
starts unset. -/
def installAccessor (st : TSt) (ia : Addr) (propName : String) : TSt :=
  match lookA st.insts ia with
  | none => st
  | some i =>
      let i1 : Inst :=
        { i with fields := removeA i.fields propName,
                 accessors := setA i.accessors propName none }
      { st with insts := setA st.insts ia i1 }

/-- JS truthiness of a field value (`if (_preds)`); an array reference is
always truthy. -/
def truthy : Val → Bool
  | Val.vs s => s ≠ ""
  | Val.vi n => n ≠ 0
  | Val.vb b => b
  | Val.varr _ => true

/-- Read of `plain[idx][pred.args.name]`: the raw field read feeding the predicate
assignment (reading a property off an inline scalar yields `undefined`). -/
def rawFieldOfElem (h : ESt) (e : RElem) (name : String) : Option Val :=
  match e with
  | RElem.erec ra => lookupField h ra name
  | _ => none

/-- The per-element body of the setter loop in `Private.trackPredicate`:
collect the facet fields `predName|facetProp` off the element instance into
a plain object, delete them from the element, build a fresh facet instance
from the collected fields, attach it under (predicate property name, owner,
element), install diff tracking on the facet properties, purge the facet
instance, and purge the element instance. -/
def facetSetup (st : TSt) (ia : Addr) (pm : PredMeta) (fprops : List String)
    (v : Addr) : TSt :=
  let vfields := match lookA st.insts v with
    | some i => i.fields
    | none => []
  let plainF : List (String × Val) :=
    fprops.foldl (fun acc fp =>
      match lookA vfields (pm.name ++ "|" ++ fp) with
      | some w => acc ++ [(fp, w)]
      | none => acc) []
  let st1 : TSt := match lookA st.insts v with
    | some i =>
        let i1 : Inst :=
          { i with fields := fprops.foldl (fun fs fp => removeA fs (pm.name ++ "|" ++ fp)) i.fields }
        { st with insts := setA st.insts v i1 }
    | none => st
  let fa := st1.nextI
  let st2 : TSt :=
    { st1 with
      insts := (fa, { className := pm.facetCls.getD "", fields := plainF, accessors := [] }) :: st1.insts,
      nextI := st1.nextI + 1 }
  let st3 : TSt := { st2 with fstore := FacetStorage.attach st2.fstore (pm.propertyName, ia, v) fa }
  let st4 := fprops.foldl (fun st fp => trackProperty st fa fp) st3
  let st5 := purgeInstance st4 fa
  purgeInstance st5 v

/-- The `set` branch of the accessor pair installed by
`Private.trackPredicate`, invoked with a raw instance array: wrap it in a
fresh `PredicateImpl` (fresh added set, no staged facet), run the facet
setup over every element, and store the collection in the accessor closure.
The facet property list is `MetadataStorage` `facets.get(facet.name or
empty) or []`. -/
def setterAssign (reg : Reg) (st : TSt) (ia : Addr) (pm : PredMeta) (xs : List Addr) : TSt :=
  let pa := st.nextP
  let st1 : TSt :=
    { st with preds := (pa, PredicateImpl.mk0 pm.propertyName ia xs) :: st.preds,
              nextP := st.nextP + 1 }
  let fprops := (lookA reg.facets (pm.facetCls.getD "")).getD []
  let st2 := xs.foldl (fun st v => facetSetup st ia pm fprops v) st1
  match lookA st2.insts ia with
  | none => st2
  | some i =>
      let i1 : Inst := { i with accessors := setA i.accessors pm.propertyName (some pa) }
      { st2 with insts := setA st2.insts ia i1 }

/-- Predicate metadata of the class of an instance
(`MetadataStorage.Instance.predicates.get(ins.constructor.name)`). -/
def predsOfInst (reg : Reg) (st : TSt) (ia : Addr) : Option (List PredMeta) :=
  match lookA st.insts ia with
  | none => none
  | some i => lookA reg.predicates i.className

/-- The `predicates.forEach(pred => ..)` loop: install the accessor pair,
then - when the raw field is truthy - recursively transform the raw array
under the predicate target class via `go` (the executor at the remaining
fuel) and assign the result through the accessor setter. -/
def predLoop (go : String → Addr → TSt → Option (List Addr × TSt)) (reg : Reg)
    (h : ESt) (ia : Addr) (e : RElem) : List PredMeta → TSt → Option TSt
  | [], st => some st
  | pm :: pl, st =>
      let st1 := installAccessor st ia pm.propertyName
      match rawFieldOfElem h e pm.name with
      | none => predLoop go reg h ia e pl st1
      | some v =>
          if truthy v then
            match v with
            | Val.varr b =>
                match go pm.typeCls b st1 with
                | none => none
                | some (xs, st2) => predLoop go reg h ia e pl (setterAssign reg st2 ia pm xs)
            | _ => none
          else predLoop go reg h ia e pl st1

/-- The `instances.forEach((ins, idx) => ..)` loop: install property diff
trackers, then - when the class has predicate metadata - wire every
predicate of the instance. -/
def instLoop (go : String → Addr → TSt → Option (List Addr × TSt)) (reg : Reg)
    (h : ESt) : List (Addr × RElem) → TSt → Option TSt
  | [], st => some st
  | (ia, e) :: rest, st =>
      let st1 := trackProps reg st ia
      match predsOfInst reg st1 ia with
      | none => instLoop go reg h rest st1
      | some pl =>
          match predLoop go reg h ia e pl st1 with
          | none => none
          | some st2 => instLoop go reg h rest st2

/-- Mirror of `Private.plainToClassExecutor` (src/unnamed/part_002 lines 83-123),
fuelled.  Bail out early with the cached instance array if the raw array was
already converted; otherwise convert every element, record the produced
array in the memo table before descending (so a cycle back to this array
completes on the cached value), then track properties and wire predicates on
every produced instance.  The raw heap `h` is read-only in this phase;
`none` means fuel ran out or a truthy non-array predicate field was hit
(`WeakMap.set` on a primitive key throws in JS). -/
def plainToClassExecutor (reg : Reg) (h : ESt) :
    Nat → String → Addr → TSt → Option (List Addr × TSt)
  | 0, _, _, _ => none
  | f + 1, cls, plainA, st =>
      match lookA st.memo plainA with
      | some xs => some (xs, st)
      | none =>
          let es := arrElems h plainA
          let p := mkInsts cls es h st
          let st2 : TSt := { p.2 with memo := (plainA, p.1) :: p.2.memo }
          match instLoop (fun cls2 b st3 => plainToClassExecutor reg h f cls2 b st3)
              reg h (p.1.zip es) st2 with
          | none => none
          | some st3 => some (p.1, st3)

/-- Mirror of `Private.transform`: allocate a fresh memoisation `WeakMap` and run the
executor. -/
def transform (reg : Reg) (f : Nat) (cls : String) (plainA : Addr) (h : ESt)
    (st : TSt) : Option (List Addr × TSt) :=
  plainToClassExecutor reg h f cls plainA { st with memo := [] }

/-- The `this._jsonData.map(jd => Private.expand(visited, resource, jd))`
loop of `build`: expand every root record against the resource index with a
shared visited set (expanding an inline scalar root is a no-op). -/
def expandRoots (res : List (String × Addr)) (f : Nat) (h : ESt) (es : List RElem) :
    Option ESt :=
  match es with
  | [] => some h
  | RElem.erec a :: es =>
      match expand res f h a with
      | none => none
      | some (h1, _) => expandRoots res f h1 es
  | _ :: es => expandRoots res f h es

/-- Mirror of `ObjectMapperBuilder.build` (src/unnamed/part_002 lines 43-60): when the
resource index is non-empty, expand every root of the json data array with a
fresh visited set; then transform the json data array under the entry type
with a fresh memo table and an empty instance world, and finally purge the
diff state of every root instance.  `jsonA` is the address of the json data
array (the builder always holds the roots as an array). -/
def ObjectMapperBuilder.build (reg : Reg) (cls : String) (jsonA : Addr)
    (res : List (String × Addr)) (fE fT : Nat) (h : ESt) : Option (List Addr × TSt) :=
  let hv : ESt := { h with visited := [] }
  match (if res.isEmpty then some hv else expandRoots res fE hv (arrElems hv jsonA)) with
  | none => none
  | some h1 =>
      match transform reg fT cls jsonA h1 initTSt with
      | none => none
      | some (roots, st) => some (roots, roots.foldl purgeInstance st)

/-! ## String universe for the expand termination argument

`expand` inserts one visiting key before every descent.  Every visiting key
is built from three strings that already occur in the (finite) record store:
field names, uid texts of field values, and the fixed text `undefined`.
`Object.assign` only moves existing values between records, so this universe
never grows while `expand` runs; the visited set therefore exhausts it. -/

/-- All strings contributed by one record: its field names and the key texts
of its field values. -/
def recStrs (r : Record) : List String :=
  r.map Prod.fst ++ r.map (fun kv => valText kv.2)

/-- All strings of the heap that can occur in a visiting-key position,
including the undefined text. -/
def heapStrs (h : ESt) : List String :=
  "undefined" :: (h.recs.map (fun ar => recStrs ar.2)).flatten

/-- The finite string universe of a heap. -/
def sFin (h : ESt) : Finset String :=
  (heapStrs h).toFinset

/-- The finite universe of visiting keys over a string universe `S`:
all strings `x:k:y` with `x`, `k`, `y` drawn from `S`. -/
def keyUniv (S : Finset String) : Finset String :=
  (S ×ˢ S ×ˢ S).image (fun p => p.1 ++ ":" ++ p.2.1 ++ ":" ++ p.2.2)

/-- The heap invariant of the termination argument: the undefined text is in
`S` and every looked-up record only contributes strings of `S`. -/
structure EInv (S : Finset String) (h : ESt) : Prop where
  undef : "undefined" ∈ S
  recsIn : ∀ a r, lookA h.recs a = some r → ∀ s, s ∈ recStrs r → s ∈ S

/-- Remaining budget of the termination argument: visiting keys of the
universe not yet in the visited set. -/
def unvisited (S : Finset String) (h : ESt) : Nat :=
  (keyUniv S \ h.visited.toFinset).card

/-- What one (successful) expansion step preserves: the visited set only
grows, the array store is untouched, the heap invariant is kept, and the
descent log contains pairwise-distinct keys that were unvisited before and
are visited afterwards. -/
def ExpandPres (h h2 : ESt) (log : List String) : Prop :=
  (∀ x, x ∈ h.visited → x ∈ h2.visited) ∧
  h2.arrs = h.arrs ∧
  (∀ S, EInv S h → EInv S h2) ∧
  (∀ k, k ∈ log → k ∉ h.visited ∧ k ∈ h2.visited) ∧
  log.Nodup

/-- Every instance of the world reports an empty scalar diff. -/
def DirtyClean (st : TSt) : Prop :=
  ∀ ia, diffOf st ia = []

/-- Every predicate collection of the world reports an empty added set. -/
def PredsClean (st : TSt) : Prop :=
  ∀ q, q ∈ st.preds → PredicateImpl.getDiff q.2 = []

/-- What one transform step preserves: existing memo entries keep their
value (the memo table is extend-only), and the clean-diff invariants are
kept. -/
def TPres (st st2 : TSt) : Prop :=
  (∀ b ys, lookA st.memo b = some ys → lookA st2.memo b = some ys) ∧
  (DirtyClean st → DirtyClean st2) ∧
  (PredsClean st → PredsClean st2)

/-! ## Basic association-list lemmas -/

theorem lookA_setA_self {α β : Type} [DecidableEq α] (l : List (α × β)) (a : α) (b : β) :
    lookA (setA l a b) a = some b := by
  induction l with
  | nil => simp [setA, lookA]
  | cons kv l ih =>
      obtain ⟨k, v⟩ := kv
      by_cases hk : k = a
      · simp [setA, lookA, hk]
      · simp [setA, lookA, hk, ih]

theorem lookA_setA_ne {α β : Type} [DecidableEq α] (l : List (α × β)) (a c : α) (b : β)
    (h : a ≠ c) : lookA (setA l a b) c = lookA l c := by
  induction l with
  | nil => simp [setA, lookA, h]
  | cons kv l ih =>
      obtain ⟨k, v⟩ := kv
      by_cases hk : k = a
      · subst hk
        simp [setA, lookA, h]
      · simp [setA, lookA, hk, ih]

theorem lookA_removeA_self {α β : Type} [DecidableEq α] (l : List (α × β)) (a : α) :
    lookA (removeA l a) a = none := by
  induction l with
  | nil => simp [removeA, lookA]
  | cons kv l ih =>
      obtain ⟨k, v⟩ := kv
      by_cases hk : k = a
      · simp [removeA, hk, ih]
      · simp [removeA, lookA, hk, ih]

theorem lookA_removeA_ne {α β : Type} [DecidableEq α] (l : List (α × β)) (a c : α)
    (h : a ≠ c) : lookA (removeA l a) c = lookA l c := by
  induction l with
  | nil => simp [removeA, lookA]
  | cons kv l ih =>
      obtain ⟨k, v⟩ := kv
      by_cases hk : k = a
      · subst hk
        simp [removeA, lookA, h, ih]
      · simp [removeA, lookA, hk, ih]

/-! ## C3, C6, C7, C10: predicate collection behaviour -/

/-- C3: after `collection.withFacet(f).add(x)` the facet storage binds
(scope key, owner, x) to `f`, so `getFacet(x)` returns `f`; the stage was
cleared by `add`, so a subsequent `update(x)` runs with no staged facet and
removes the binding, making `getFacet(x)` absent. -/
theorem c3_facet_lifecycle (p : PredicateImpl) (fs : FacetStorage) (x f : Addr) :
    (((p.withFacet (some f)).add fs x).1.getFacet ((p.withFacet (some f)).add fs x).2 x
        = some f) ∧
    ((p.withFacet (some f)).add fs x).1._facet = none ∧
    ((((p.withFacet (some f)).add fs x).1.update ((p.withFacet (some f)).add fs x).2 x).1.getFacet
        (((p.withFacet (some f)).add fs x).1.update ((p.withFacet (some f)).add fs x).2 x).2 x
        = none) := by
  refine ⟨?_, ?_, ?_⟩
  · simp [PredicateImpl.withFacet, PredicateImpl.add, PredicateImpl.getFacet,
      FacetStorage.attach, FacetStorage.getF, lookA]
  · simp [PredicateImpl.withFacet, PredicateImpl.add]
  · simp [PredicateImpl.withFacet, PredicateImpl.add, PredicateImpl.update,
      PredicateImpl.getFacet, FacetStorage.attach, FacetStorage.detachF,
      FacetStorage.getF, lookA_removeA_self]

/-- C7: `detach` and `delete` on a predicate collection fail synchronously
with the not-implemented error; the model functions return the error alone,
so no backing array, added set or facet binding is modified. -/
theorem c7_not_implemented (p : PredicateImpl) (fs : FacetStorage) (x : Addr) :
    p.detach fs x = Except.error "Not implemented" ∧
    p.delete fs x = Except.error "Not implemented" := by
  exact ⟨rfl, rfl⟩

/-- C6: `update` with no staged facet removes any facet binding of the
element and changes nothing else; `update` with a staged facet attaches it
and keeps the stage; `add` with a staged facet attaches it, clears the
stage, appends to the backing array and records the element in the added
set. -/
theorem c6_update_asymmetry (p : PredicateImpl) (fs : FacetStorage) (x f : Addr) :
    (p._facet = none →
      (p.update fs x).1 = p ∧
      (p.update fs x).2 = FacetStorage.detachF fs (p._namespace, p._parent, x) ∧
      (p.update fs x).1.getFacet (p.update fs x).2 x = none) ∧
    (p._facet = some f →
      (p.update fs x).1 = p ∧
      (p.update fs x).1._facet = some f ∧
      (p.update fs x).1.getFacet (p.update fs x).2 x = some f) ∧
    (p._facet = some f →
      (p.add fs x).1._facet = none ∧
      (p.add fs x).1._data = p._data ++ [x] ∧
      (p.add fs x).1._diff = setAdd p._diff x ∧
      (p.add fs x).1.getFacet (p.add fs x).2 x = some f) := by
  refine ⟨?_, ?_, ?_⟩
  · intro h
    simp [PredicateImpl.update, h, PredicateImpl.getFacet, FacetStorage.detachF,
      FacetStorage.getF, lookA_removeA_self]
  · intro h
    simp [PredicateImpl.update, h, PredicateImpl.getFacet, FacetStorage.attach,
      FacetStorage.getF, lookA]
  · intro h
    simp [PredicateImpl.add, h, PredicateImpl.getFacet, FacetStorage.attach,
      FacetStorage.getF, lookA]

/-- Witness for C6 at a concrete collection. -/
theorem c6_update_asymmetry_witness :
    ((PredicateImpl.mk0 "friends" 7 []).update [] 3).2 = [] ∧
    (((PredicateImpl.mk0 "friends" 7 []).withFacet (some 5)).add [] 3).1._data = [3] := by
  refine ⟨?_, ?_⟩
  · have h := (c6_update_asymmetry (PredicateImpl.mk0 "friends" 7 []) [] 3 5).1 (by rfl)
    exact h.2.1
  · have h := (c6_update_asymmetry ((PredicateImpl.mk0 "friends" 7 []).withFacet (some 5)) [] 3 5).2.2 (by rfl)
    exact h.2.1

/-- C10: a null staged facet (the state after `withFacet(null)`) behaves as
no staged facet: `add` attaches nothing (the facet storage is untouched)
while still pushing the element and recording it in the added set, and
`update` detaches the existing binding of the element instead of attaching
null. -/
theorem c10_null_stage (p : PredicateImpl) (fs : FacetStorage) (x : Addr) :
    ((p.withFacet none).add fs x).2 = fs ∧
    ((p.withFacet none).add fs x).1._data = p._data ++ [x] ∧
    ((p.withFacet none).add fs x).1._diff = setAdd p._diff x ∧
    ((p.withFacet none).add fs x).1._facet = none ∧
    ((p.withFacet none).update fs x).2
        = FacetStorage.detachF fs (p._namespace, p._parent, x) ∧
    ((p.withFacet none).update fs x).1.getFacet ((p.withFacet none).update fs x).2 x
        = none := by
  refine ⟨?_, ?_, ?_, ?_, ?_, ?_⟩ <;>
    simp [PredicateImpl.withFacet, PredicateImpl.add, PredicateImpl.update,
      PredicateImpl.getFacet, FacetStorage.detachF, FacetStorage.getF,
      lookA_removeA_self]

/-! ## C8: predicate declaration errors -/

/-- C8: declaring a predicate errors exactly when the type option is an
array not containing exactly one element, or when no type is given and none
is inferable from reflection; any other declaration succeeds. -/
theorem c8_declaration_errors (nodeName propertyName : String)
    (options : PredicateOptions) (reflected : Option String) :
    isErr (Predicate.decorate nodeName propertyName options reflected) = true ↔
      ((∃ ts, options.type = some (OptionsType.arr ts) ∧ ts.length ≠ 1) ∨
        (options.type = none ∧ reflected = none)) := by
  constructor
  · intro h
    match hopt : options.type with
    | some (OptionsType.arr ts) =>
        match ts with
        | [t] =>
            exfalso
            simp [Predicate.decorate, sanitizePredicateType, hopt, isErr] at h
        | [] => exact Or.inl ⟨[], by simp [hopt]⟩
        | t1 :: t2 :: rest =>
            exact Or.inl ⟨t1 :: t2 :: rest, by simp [hopt]⟩
    | some (OptionsType.single t) =>
        exfalso
        simp [Predicate.decorate, sanitizePredicateType, hopt, isErr] at h
    | none =>
        match hr : reflected with
        | some s =>
            exfalso
            simp [Predicate.decorate, sanitizePredicateType, hopt, hr, isErr] at h
        | none => refine Or.inr ⟨?_, ?_⟩ <;> simp [hopt, hr]
  · intro h
    rcases h with ⟨ts, hty, hlen⟩ | ⟨hty, hr⟩
    · match ts, hlen with
      | [], _ => simp [Predicate.decorate, sanitizePredicateType, hty, isErr]
      | t1 :: t2 :: rest, _ => simp [Predicate.decorate, sanitizePredicateType, hty, isErr]
      | [t], hlen => simp at hlen
    · simp [Predicate.decorate, sanitizePredicateType, hty, hr, isErr]

/-! ## C9: schema determinism (canonical example) -/

/-- C9: for the registered `Work` and `Person` types of the canonical
example, `SchemaBuilder.build` returns exactly the expected schema text:
the two type blocks, then the three deduplicated flat predicate-type lines,
each newline-terminated, with no flat line for the node-typed `works`
predicate. -/
theorem c9_schema_canonical :
    SchemaBuilder.build [workType, personType] =
      "type Work \x7b\n  Work.name: string\n\x7d\ntype Person \x7b\n  name: string\n  Person.hobbies: [string]\n\x7d\nWork.name:string\n@index(hash) name:string\nPerson.hobbies:[string]\n" := by
  rfl

/-! ## Record merge lemmas (phase A) -/

theorem lookA_mem {α β : Type} [DecidableEq α] (l : List (α × β)) (a : α) (b : β)
    (h : lookA l a = some b) : (a, b) ∈ l := by
  induction l with
  | nil => simp [lookA] at h
  | cons kv l ih =>
      obtain ⟨k, v⟩ := kv
      by_cases hk : k = a
      · subst hk
        simp [lookA] at h
        simp [h]
      · simp [lookA, hk] at h
        simp [ih h]

theorem lookA_assign_not_mem (src : Record) (d : Record) (k : String)
    (h : k ∉ src.map Prod.fst) : lookA (assignFields d src) k = lookA d k := by
  induction src generalizing d with
  | nil => rfl
  | cons kv src ih =>
      obtain ⟨k0, v0⟩ := kv
      simp only [List.map_cons, List.mem_cons] at h
      push_neg at h
      have : assignFields d ((k0, v0) :: src) = assignFields (setA d k0 v0) src := rfl
      rw [this, ih _ h.2, lookA_setA_ne _ _ _ _ (fun he => h.1 he.symm)]

/-- Shallow overwrite with the source record winning: field lookup on the
result of `Object.assign(dst, src)` sees the `src` binding when `src` has
the key (with unique keys, as JS objects have), and the `dst` binding
otherwise. -/
theorem assignFields_lookA (src : Record) (d : Record) (k : String)
    (hnd : (src.map Prod.fst).Nodup) :
    lookA (assignFields d src) k =
      (match lookA src k with
       | some v => some v
       | none => lookA d k) := by
  induction src generalizing d with
  | nil => rfl
  | cons kv src ih =>
      obtain ⟨k0, v0⟩ := kv
      simp only [List.map_cons, List.nodup_cons] at hnd
      have hstep : assignFields d ((k0, v0) :: src) = assignFields (setA d k0 v0) src := rfl
      by_cases hk : k0 = k
      · subst hk
        rw [hstep, lookA_assign_not_mem _ _ _ hnd.1, lookA_setA_self]
        simp [lookA]
      · rw [hstep, ih _ hnd.2]
        simp [lookA, hk, lookA_setA_ne _ _ _ _ hk]

/-! ## C4: the merge step of expand -/

/-- C4: one `expand` invocation on a visited record first performs the merge
step and then always recurses over the (post-merge) field-name snapshot -
there is no error path; the merge step replaces the record in place by
`Object.assign(record, indexed)` exactly when the record has a uid bound in
the resource index (shallow overwrite, indexed record winning, as
`assignFields_lookA` states pointwise); a record with no uid, or whose uid
is not indexed, is left untouched while still being recursed into. -/
theorem c4_expand_merge (res : List (String × Addr)) (f : Nat) (h : ESt) (a : Addr)
    (r : Record) (hr : lookupRec h a = some r) :
    (expand res (f + 1) h a
        = expandKeys (fun h2 a2 => expand res f h2 a2) a
            (recKeys (mergeStep res h a) a) (mergeStep res h a)) ∧
    (∀ u b rb, recUid r = some u → lookA res u = some b → lookupRec h b = some rb →
        lookupRec (mergeStep res h a) a = some (assignFields r rb) ∧
        (mergeStep res h a).visited = h.visited ∧
        ((rb.map Prod.fst).Nodup → ∀ k,
          lookA (assignFields r rb) k =
            (match lookA rb k with
             | some v => some v
             | none => lookA r k))) ∧
    ((recUid r = none ∨ (∀ u, recUid r = some u → lookA res u = none)) →
        mergeStep res h a = h) := by
  refine ⟨?_, ?_, ?_⟩
  · rw [expand]
  · intro u b rb hu hres hb
    have hm : mergeStep res h a = setRec h a (assignFields r rb) := by
      simp [mergeStep, hr, hu, hres, hb]
    refine ⟨?_, ?_, ?_⟩
    · rw [hm]
      simp [setRec, lookupRec, lookA_setA_self]
    · rw [hm]
      rfl
    · intro hnd k
      exact assignFields_lookA rb r k hnd
  · intro hcase
    rcases hcase with hnone | hmiss
    · simp [mergeStep, hr, hnone]
    · cases hu : recUid r with
      | none => simp [mergeStep, hr, hu]
      | some u => simp [mergeStep, hr, hu, hmiss u hu]

/-- Witness for C4: a two-record heap where record 0 has an indexed uid that
merges in a `name` field, and record 1 has no uid and stays untouched. -/
theorem c4_expand_merge_witness :
    (lookupRec { recs := [(0, [("uid", Val.vs "a")]), (2, [("uid", Val.vs "a"), ("name", Val.vs "x")])], arrs := [], visited := [] } 0
        = some [("uid", Val.vs "a")]) ∧
    lookupRec (mergeStep [("a", 2)]
        { recs := [(0, [("uid", Val.vs "a")]), (2, [("uid", Val.vs "a"), ("name", Val.vs "x")])], arrs := [], visited := [] } 0) 0
      = some (assignFields [("uid", Val.vs "a")] [("uid", Val.vs "a"), ("name", Val.vs "x")]) := by
  refine ⟨rfl, ?_⟩
  have h := c4_expand_merge [("a", 2)] 0
      { recs := [(0, [("uid", Val.vs "a")]), (2, [("uid", Val.vs "a"), ("name", Val.vs "x")])], arrs := [], visited := [] } 0
      [("uid", Val.vs "a")] rfl
  exact (h.2.1 "a" 2 [("uid", Val.vs "a"), ("name", Val.vs "x")] rfl rfl rfl).1

/-! ## Expand preservation lemmas -/

theorem mem_recStrs (r : Record) (s : String) :
    s ∈ recStrs r ↔ ∃ kv, kv ∈ r ∧ (kv.1 = s ∨ valText kv.2 = s) := by
  simp only [recStrs, List.mem_append, List.mem_map]
  constructor
  · rintro (⟨kv, hkv, hs⟩ | ⟨kv, hkv, hs⟩)
    · exact ⟨kv, hkv, Or.inl hs⟩
    · exact ⟨kv, hkv, Or.inr hs⟩
  · rintro ⟨kv, hkv, hs | hs⟩
    · exact Or.inl ⟨kv, hkv, hs⟩
    · exact Or.inr ⟨kv, hkv, hs⟩

theorem setA_mem {α β : Type} [DecidableEq α] (l : List (α × β)) (a : α) (b : β)
    (kv : α × β) (h : kv ∈ setA l a b) : kv = (a, b) ∨ kv ∈ l := by
  induction l with
  | nil =>
      simp [setA] at h
      exact Or.inl h
  | cons kv0 l ih =>
      by_cases hk : kv0.1 = a
      · have : setA (kv0 :: l) a b = (a, b) :: l := by
          obtain ⟨k0, v0⟩ := kv0
          simp [setA, hk] at *
          simp [hk]
        rw [this] at h
        rcases List.mem_cons.mp h with hh | hh
        · exact Or.inl hh
        · exact Or.inr (List.mem_cons_of_mem _ hh)
      · have : setA (kv0 :: l) a b = kv0 :: setA l a b := by
          obtain ⟨k0, v0⟩ := kv0
          simp at hk
          simp [setA, hk]
        rw [this] at h
        rcases List.mem_cons.mp h with hh | hh
        · exact Or.inr (by simp [hh])
        · rcases ih hh with hh2 | hh2
          · exact Or.inl hh2
          · exact Or.inr (List.mem_cons_of_mem _ hh2)

theorem recStrs_setA (d : Record) (k : String) (v : Val) (s : String)
    (h : s ∈ recStrs (setA d k v)) : s = k ∨ s = valText v ∨ s ∈ recStrs d := by
  rcases (mem_recStrs _ _).mp h with ⟨kv, hkv, hs⟩
  rcases setA_mem d k v kv hkv with hh | hh
  · subst hh
    rcases hs with hs | hs
    · exact Or.inl hs.symm
    · exact Or.inr (Or.inl hs.symm)
  · exact Or.inr (Or.inr ((mem_recStrs _ _).mpr ⟨kv, hh, hs⟩))

theorem recStrs_assign (src : Record) (d : Record) (s : String)
    (h : s ∈ recStrs (assignFields d src)) : s ∈ recStrs d ∨ s ∈ recStrs src := by
  induction src generalizing d with
  | nil => exact Or.inl h
  | cons kv src ih =>
      have hstep : assignFields d (kv :: src) = assignFields (setA d kv.1 kv.2) src := rfl
      rw [hstep] at h
      rcases ih (setA d kv.1 kv.2) h with hd | hsrc
      · rcases recStrs_setA d kv.1 kv.2 s hd with hh | hh | hh
        · exact Or.inr ((mem_recStrs _ _).mpr ⟨kv, List.mem_cons_self _ _, Or.inl hh.symm⟩)
        · exact Or.inr ((mem_recStrs _ _).mpr ⟨kv, List.mem_cons_self _ _, Or.inr hh.symm⟩)
        · exact Or.inl hh
      · rcases (mem_recStrs _ _).mp hsrc with ⟨kv2, hkv2, hs2⟩
        exact Or.inr ((mem_recStrs _ _).mpr ⟨kv2, List.mem_cons_of_mem _ hkv2, hs2⟩)

theorem mergeStep_visited (res : List (String × Addr)) (h : ESt) (a : Addr) :
    (mergeStep res h a).visited = h.visited := by
  unfold mergeStep
  repeat' split
  all_goals rfl

theorem mergeStep_arrs (res : List (String × Addr)) (h : ESt) (a : Addr) :
    (mergeStep res h a).arrs = h.arrs := by
  unfold mergeStep
  repeat' split
  all_goals rfl

theorem mergeStep_EInv (S : Finset String) (res : List (String × Addr)) (h : ESt)
    (a : Addr) (hI : EInv S h) : EInv S (mergeStep res h a) := by
  unfold mergeStep
  split
  next => exact hI
  next r hra =>
    split
    next => exact hI
    next u hu =>
      split
      next => exact hI
      next b hres =>
        split
        next => exact hI
        next rb hrb =>
          refine ⟨hI.undef, ?_⟩
          intro a' r' hlook s hs
          by_cases ha' : a = a'
          · subst ha'
            have hlook2 : lookA (setA h.recs a (assignFields r rb)) a = some r' := hlook
            rw [lookA_setA_self] at hlook2
            cases hlook2
            rcases recStrs_assign rb r s hs with hh | hh
            · exact hI.recsIn a r hra s hh
            · exact hI.recsIn b rb hrb s hh
          · have hlook2 : lookA (setA h.recs a (assignFields r rb)) a' = some r' := hlook
            rw [lookA_setA_ne _ _ _ _ ha'] at hlook2
            exact hI.recsIn a' r' hlook2 s hs

theorem expandPres_refl (h : ESt) : ExpandPres h h [] := by
  refine ⟨fun x hx => hx, rfl, fun S hS => hS, ?_, List.nodup_nil⟩
  intro k hk
  simp at hk

theorem expandPres_comp (h1 h2 h3 : ESt) (log1 log2 : List String)
    (p1 : ExpandPres h1 h2 log1) (p2 : ExpandPres h2 h3 log2) :
    ExpandPres h1 h3 (log1 ++ log2) := by
  obtain ⟨v1, a1, i1, l1, n1⟩ := p1
  obtain ⟨v2, a2, i2, l2, n2⟩ := p2
  refine ⟨fun x hx => v2 x (v1 x hx), a2.trans a1, fun S hS => i2 S (i1 S hS), ?_, ?_⟩
  · intro k hk
    rcases List.mem_append.mp hk with hk | hk
    · exact ⟨(l1 k hk).1, v2 k (l1 k hk).2⟩
    · refine ⟨fun hmem => (l2 k hk).1 (v1 k hmem), (l2 k hk).2⟩
  · refine List.Nodup.append n1 n2 ?_
    intro k hk1 hk2
    exact (l2 k hk2).1 (l1 k hk1).2

theorem einv_visited (S : Finset String) (h : ESt) (vis : List String)
    (hI : EInv S h) : EInv S { h with visited := vis } :=
  ⟨hI.undef, hI.recsIn⟩

theorem expandPres_insert_skip (h h2 : ESt) (vk : String) (log : List String)
    (p : ExpandPres { h with visited := vk :: h.visited } h2 log) :
    ExpandPres h h2 log := by
  obtain ⟨v1, a1, i1, l1, n1⟩ := p
  refine ⟨fun x hx => v1 x (by simp [hx]), a1, ?_, ?_, n1⟩
  · intro S hS
    exact i1 S (einv_visited S h _ hS)
  · intro k hk
    refine ⟨fun hmem => (l1 k hk).1 (by simp [hmem]), (l1 k hk).2⟩

theorem expandPres_descend (h h2 h3 : ESt) (vk : String) (log1 log2 : List String)
    (hvk : vk ∉ h.visited)
    (p1 : ExpandPres { h with visited := vk :: h.visited } h2 log1)
    (p2 : ExpandPres h2 h3 log2) :
    ExpandPres h h3 (vk :: (log1 ++ log2)) := by
  have pc := expandPres_comp _ _ _ _ _ p1 p2
  obtain ⟨v1, a1, i1, l1, n1⟩ := pc
  have hvk1 : vk ∈ ({ h with visited := vk :: h.visited } : ESt).visited := by simp
  refine ⟨fun x hx => v1 x (by simp [hx]), a1, ?_, ?_, ?_⟩
  · intro S hS
    exact i1 S (einv_visited S h _ hS)
  · intro k hk
    rcases List.mem_cons.mp hk with hk | hk
    · subst hk
      exact ⟨hvk, v1 k hvk1⟩
    · refine ⟨fun hmem => (l1 k hk).1 (by simp [hmem]), (l1 k hk).2⟩
  · refine List.nodup_cons.mpr ⟨?_, n1⟩
    intro hvkin
    exact (l1 vk hvkin).1 hvk1

theorem elemsPres (go : ESt → Addr → Option (ESt × List String))
    (hA : ∀ h a h2 log, go h a = some (h2, log) → ExpandPres h h2 log)
    (a : Addr) (kk : String) :
    ∀ es h h2 log, expandElems go a kk es h = some (h2, log) → ExpandPres h h2 log := by
  intro es
  induction es with
  | nil =>
      intro h h2 log hc
      simp only [expandElems] at hc
      cases hc
      exact expandPres_refl h
  | cons e es ih =>
      intro h h2 log hc
      simp only [expandElems] at hc
      by_cases hv : mkVKey h a kk e ∈ h.visited
      · rw [if_pos hv] at hc
        exact ih h h2 log hc
      · rw [if_neg hv] at hc
        split at hc
        case _ ca =>
          split at hc
          case _ hcall =>
            cases hc
          case _ h2x log1 hcall =>
            split at hc
            case _ hcall2 =>
              cases hc
            case _ h3 log2 hcall2 =>
              simp only [Option.some.injEq, Prod.mk.injEq] at hc
              obtain ⟨hh, hl⟩ := hc
              subst hh
              subst hl
              exact expandPres_descend h h2x h3 _ log1 log2 hv
                (hA _ ca h2x log1 hcall) (ih h2x h3 log2 hcall2)
        case _ e2 hne =>
          exact expandPres_insert_skip h h2 _ log (ih _ h2 log hc)

theorem keysPres (go : ESt → Addr → Option (ESt × List String))
    (hE : ∀ a k es h h2 log, expandElems go a k es h = some (h2, log) →
      ExpandPres h h2 log)
    (a : Addr) :
    ∀ ks h h2 log, expandKeys go a ks h = some (h2, log) → ExpandPres h h2 log := by
  intro ks
  induction ks with
  | nil =>
      intro h h2 log hc
      simp only [expandKeys] at hc
      cases hc
      exact expandPres_refl h
  | cons k ks ih =>
      intro h h2 log hc
      simp only [expandKeys] at hc
      by_cases hdt : k = "dgraph.type"
      · rw [if_pos hdt] at hc
        exact ih h h2 log hc
      · rw [if_neg hdt] at hc
        split at hc
        case _ b hlf =>
          split at hc
          case _ hcall =>
            cases hc
          case _ h2x log1 hcall =>
            split at hc
            case _ hcall2 =>
              cases hc
            case _ h3 log2 hcall2 =>
              simp only [Option.some.injEq, Prod.mk.injEq] at hc
              obtain ⟨hh, hl⟩ := hc
              subst hh
              subst hl
              exact expandPres_comp h h2x h3 log1 log2
                (hE a k _ h h2x log1 hcall) (ih h2x h3 log2 hcall2)
        case _ v hne =>
          exact ih h h2 log hc

theorem expandPres (res : List (String × Addr)) :
    ∀ f h a h2 log, expand res f h a = some (h2, log) → ExpandPres h h2 log := by
  intro f
  induction f with
  | zero =>
      intro h a h2 log hc
      simp [expand] at hc
  | succ f ih =>
      intro h a h2 log hc
      simp only [expand] at hc
      have hp := keysPres (fun h2 a2 => expand res f h2 a2)
        (fun a k es h h2 log hcc =>
          elemsPres _ (fun h a h2 log hccc => ih h a h2 log hccc) a k es h h2 log hcc)
        a _ _ _ _ hc
      obtain ⟨v1, a1, i1, l1, n1⟩ := hp
      refine ⟨?_, ?_, ?_, ?_, n1⟩
      · intro x hx
        exact v1 x (by rw [mergeStep_visited]; exact hx)
      · rw [a1, mergeStep_arrs]
      · intro S hS
        exact i1 S (mergeStep_EInv S res h a hS)
      · intro k hk
        refine ⟨?_, (l1 k hk).2⟩
        intro hmem
        exact (l1 k hk).1 (by rw [mergeStep_visited]; exact hmem)

/-! ## Expand sufficiency (termination) lemmas -/

theorem uidTextAt_mem (S : Finset String) (h : ESt) (a : Addr) (hI : EInv S h) :
    uidTextAt h a ∈ S := by
  unfold uidTextAt
  split
  case _ r hra =>
    unfold uidKeyText
    split
    case _ v hu =>
      have hmem : (("uid", v) : String × Val) ∈ r := lookA_mem r "uid" v hu
      exact hI.recsIn a r hra (valText v) ((mem_recStrs r (valText v)).mpr
        ⟨("uid", v), hmem, Or.inr rfl⟩)
    case _ => exact hI.undef
  case _ => exact hI.undef

theorem mkVKey_mem (S : Finset String) (h : ESt) (a : Addr) (k : String) (e : RElem)
    (hI : EInv S h) (hk : k ∈ S) : mkVKey h a k e ∈ keyUniv S := by
  have hx : uidTextAt h a ∈ S := uidTextAt_mem S h a hI
  cases e with
  | erec ca =>
      have hy : uidTextAt h ca ∈ S := uidTextAt_mem S h ca hI
      unfold keyUniv
      refine Finset.mem_image.mpr ⟨(uidTextAt h a, k, uidTextAt h ca), ?_, rfl⟩
      simp [Finset.mem_product, hx, hk, hy]
  | es s =>
      unfold keyUniv
      refine Finset.mem_image.mpr ⟨(uidTextAt h a, k, "undefined"), ?_, rfl⟩
      simp [Finset.mem_product, hx, hk, hI.undef]
  | ei n =>
      unfold keyUniv
      refine Finset.mem_image.mpr ⟨(uidTextAt h a, k, "undefined"), ?_, rfl⟩
      simp [Finset.mem_product, hx, hk, hI.undef]

theorem unvisited_lt_insert (S : Finset String) (h : ESt) (vk : String)
    (hU : vk ∈ keyUniv S) (hv : vk ∉ h.visited) :
    unvisited S { h with visited := vk :: h.visited } < unvisited S h := by
  unfold unvisited
  apply Finset.card_lt_card
  rw [Finset.ssubset_iff_of_subset]
  · refine ⟨vk, ?_, ?_⟩
    · rw [Finset.mem_sdiff]
      refine ⟨hU, ?_⟩
      rw [List.mem_toFinset]
      exact hv
    · rw [Finset.mem_sdiff]
      simp
  · intro x hx
    rw [Finset.mem_sdiff] at hx ⊢
    refine ⟨hx.1, ?_⟩
    intro hmem
    apply hx.2
    rw [List.mem_toFinset] at hmem ⊢
    simp
    right
    exact hmem

theorem unvisited_mono (S : Finset String) (h h2 : ESt)
    (hgrow : ∀ x, x ∈ h.visited → x ∈ h2.visited) :
    unvisited S h2 ≤ unvisited S h := by
  unfold unvisited
  apply Finset.card_le_card
  intro x hx
  rw [Finset.mem_sdiff] at hx ⊢
  refine ⟨hx.1, ?_⟩
  intro hmem
  apply hx.2
  rw [List.mem_toFinset] at hmem ⊢
  exact hgrow x hmem

theorem visited_zero_mem (S : Finset String) (h : ESt) (hz : unvisited S h = 0)
    (x : String) (hx : x ∈ keyUniv S) : x ∈ h.visited := by
  unfold unvisited at hz
  rw [Finset.card_eq_zero] at hz
  by_contra hmem
  have : x ∈ keyUniv S \ h.visited.toFinset := by
    rw [Finset.mem_sdiff, List.mem_toFinset]
    exact ⟨hx, hmem⟩
  rw [hz] at this
  simp at this

theorem recKeys_sub (S : Finset String) (h : ESt) (a : Addr) (hI : EInv S h) :
    ∀ k, k ∈ recKeys h a → k ∈ S := by
  intro k hk
  unfold recKeys at hk
  cases hra : lookupRec h a with
  | none => rw [hra] at hk; simp at hk
  | some r =>
      rw [hra] at hk
      simp only [List.mem_map] at hk
      obtain ⟨kv, hkv, hfst⟩ := hk
      exact hI.recsIn a r hra k ((mem_recStrs r k).mpr ⟨kv, hkv, Or.inl hfst⟩)

theorem elemsSuff (go : ESt → Addr → Option (ESt × List String)) (n : Nat)
    (hgo : ∀ h a (S : Finset String), EInv S h → unvisited S h < n →
      ∃ out, go h a = some out)
    (hgoPres : ∀ h a h2 log, go h a = some (h2, log) → ExpandPres h h2 log)
    (a : Addr) (k : String) :
    ∀ es (S : Finset String), k ∈ S → ∀ h, EInv S h → unvisited S h ≤ n →
      ∃ out, expandElems go a k es h = some out := by
  intro es
  induction es with
  | nil =>
      intro S hk h hI hle
      exact ⟨(h, []), by simp [expandElems]⟩
  | cons e es ihe =>
      intro S hk h hI hle
      by_cases hv : mkVKey h a k e ∈ h.visited
      · obtain ⟨out, hout⟩ := ihe S hk h hI hle
        refine ⟨out, ?_⟩
        simp only [expandElems]
        rw [if_pos hv]
        exact hout
      · have hUk : mkVKey h a k e ∈ keyUniv S := mkVKey_mem S h a k e hI hk
        have hlt1 : unvisited S { h with visited := mkVKey h a k e :: h.visited }
            < unvisited S h := unvisited_lt_insert S h _ hUk hv
        cases e with
        | erec ca =>
            obtain ⟨⟨h2, log1⟩, hcall⟩ := hgo
              { h with visited := mkVKey h a k (RElem.erec ca) :: h.visited } ca S
              (einv_visited S h _ hI) (by omega)
            have hpres := hgoPres _ ca h2 log1 hcall
            have hI2 : EInv S h2 := hpres.2.2.1 S (einv_visited S h _ hI)
            have hle2 : unvisited S h2 ≤ n := by
              have := unvisited_mono S _ h2 hpres.1
              omega
            obtain ⟨⟨h3, log2⟩, hcall2⟩ := ihe S hk h2 hI2 hle2
            refine ⟨(h3, mkVKey h a k (RElem.erec ca) :: (log1 ++ log2)), ?_⟩
            simp [expandElems, hv, hcall, hcall2]
        | es s =>
            obtain ⟨out, hout⟩ := ihe S hk
              { h with visited := mkVKey h a k (RElem.es s) :: h.visited }
              (einv_visited S h _ hI) (by omega)
            refine ⟨out, ?_⟩
            simp [expandElems, hv, hout]
        | ei m =>
            obtain ⟨out, hout⟩ := ihe S hk
              { h with visited := mkVKey h a k (RElem.ei m) :: h.visited }
              (einv_visited S h _ hI) (by omega)
            refine ⟨out, ?_⟩
            simp [expandElems, hv, hout]

theorem keysSuff (go : ESt → Addr → Option (ESt × List String)) (n : Nat)
    (hE : ∀ a k, ∀ es (S : Finset String), k ∈ S → ∀ h, EInv S h → unvisited S h ≤ n →
      ∃ out, expandElems go a k es h = some out)
    (hgoPres : ∀ h a h2 log, go h a = some (h2, log) → ExpandPres h h2 log)
    (a : Addr) :
    ∀ ks (S : Finset String), (∀ k2, k2 ∈ ks → k2 ∈ S) → ∀ h, EInv S h →
      unvisited S h ≤ n → ∃ out, expandKeys go a ks h = some out := by
  intro ks
  induction ks with
  | nil =>
      intro S hks h hI hle
      exact ⟨(h, []), by simp [expandKeys]⟩
  | cons k ks ihk =>
      intro S hks h hI hle
      have hks2 : ∀ k2, k2 ∈ ks → k2 ∈ S := fun k2 hk2 => hks k2 (List.mem_cons_of_mem _ hk2)
      by_cases hdt : k = "dgraph.type"
      · obtain ⟨out, hout⟩ := ihk S hks2 h hI hle
        refine ⟨out, ?_⟩
        simp only [expandKeys]
        rw [if_pos hdt]
        exact hout
      · cases hlf : lookupField h a k with
        | none =>
            obtain ⟨out, hout⟩ := ihk S hks2 h hI hle
            refine ⟨out, ?_⟩
            simp [expandKeys, hdt, hlf, hout]
        | some v =>
            cases v with
            | varr b =>
                obtain ⟨⟨h2, log1⟩, hcall⟩ := hE a k (arrElems h b) S
                  (hks k (List.mem_cons_self _ _)) h hI hle
                have hpres := elemsPres go hgoPres a k (arrElems h b) h h2 log1 hcall
                have hI2 : EInv S h2 := hpres.2.2.1 S hI
                have hle2 : unvisited S h2 ≤ n :=
                  le_trans (unvisited_mono S h h2 hpres.1) hle
                obtain ⟨⟨h3, log2⟩, hcall2⟩ := ihk S hks2 h2 hI2 hle2
                refine ⟨(h3, log1 ++ log2), ?_⟩
                simp [expandKeys, hdt, hlf, hcall, hcall2]
            | vs sS =>
                obtain ⟨out, hout⟩ := ihk S hks2 h hI hle
                refine ⟨out, ?_⟩
                simp [expandKeys, hdt, hlf, hout]
            | vi m =>
                obtain ⟨out, hout⟩ := ihk S hks2 h hI hle
                refine ⟨out, ?_⟩
                simp [expandKeys, hdt, hlf, hout]
            | vb bb =>
                obtain ⟨out, hout⟩ := ihk S hks2 h hI hle
                refine ⟨out, ?_⟩
                simp [expandKeys, hdt, hlf, hout]

theorem expandSuffA :
    ∀ f res h a (S : Finset String), EInv S h → unvisited S h < f →
      ∃ out, expand res f h a = some out := by
  intro f
  induction f with
  | zero =>
      intro res h a S hI hlt
      omega
  | succ f ih =>
      intro res h a S hI hlt
      have hI1 : EInv S (mergeStep res h a) := mergeStep_EInv S res h a hI
      have hun : unvisited S (mergeStep res h a) = unvisited S h := by
        unfold unvisited
        rw [mergeStep_visited]
      obtain ⟨out, hout⟩ := keysSuff (fun h2 a2 => expand res f h2 a2) f
        (elemsSuff _ f (fun h a S hI2 hlt2 => ih res h a S hI2 hlt2)
          (fun h a h2 log hc => expandPres res f h a h2 log hc))
        (fun h a h2 log hc => expandPres res f h a h2 log hc)
        a (recKeys (mergeStep res h a) a) S (recKeys_sub S _ a hI1)
        (mergeStep res h a) hI1 (by omega)
      refine ⟨out, ?_⟩
      simp only [expand]
      exact hout

theorem einv_sFin (h : ESt) : EInv (sFin h) h := by
  constructor
  · unfold sFin heapStrs
    simp
  · intro a r hra s hs
    unfold sFin heapStrs
    rw [List.mem_toFinset]
    refine List.mem_cons_of_mem _ ?_
    rw [List.mem_flatten]
    exact ⟨recStrs r, List.mem_map.mpr ⟨(a, r), lookA_mem _ _ _ hra, rfl⟩, hs⟩

/-! ## C5: expand termination and one descent per edge -/

/-- C5: for every finite heap (cyclic references included), every resource
index and every root record, `expand` terminates - some fuel suffices, where
running out of fuel is the only `none` outcome - and on any successful run
the visiting keys at which `expand` descended into a child record are
pairwise distinct and disjoint from the initial visited set: an edge whose
`parentUid:fieldName:childUid` key is already in the visited set is never
descended into again, so there is at most one descent per distinct edge
key.  The termination bound is the finite visiting-key universe of the
heap: every descent consumes a fresh key from it. -/
theorem c5_expand_terminates (res : List (String × Addr)) (h : ESt) (a : Addr) :
    (∃ f out, expand res f h a = some out) ∧
    (∀ f h2 log, expand res f h a = some (h2, log) →
      log.Nodup ∧ ∀ k, k ∈ log → k ∉ h.visited) := by
  constructor
  · obtain ⟨out, hout⟩ := expandSuffA (unvisited (sFin h) h + 1) res h a (sFin h)
      (einv_sFin h) (by omega)
    exact ⟨_, out, hout⟩
  · intro f h2 log hc
    have hp := expandPres res f h a h2 log hc
    exact ⟨hp.2.2.2.2, fun k hk => (hp.2.2.2.1 k hk).1⟩

/-- Witness for C5 on a two-node cyclic heap (record 0 and record 1
reference each other through their `knows` arrays): fuel 3 already
succeeds, the two descent keys are distinct, and none of them was visited
initially. -/
theorem c5_expand_terminates_witness :
    (∃ f out, expand [("a", 2)]
      f
      { recs := [(0, [("uid", Val.vs "a"), ("knows", Val.varr 10)]),
                 (1, [("uid", Val.vs "b"), ("knows", Val.varr 11)]),
                 (2, [("uid", Val.vs "a"), ("name", Val.vs "Alice"), ("knows", Val.varr 10)])],
        arrs := [(10, [RElem.erec 1]), (11, [RElem.erec 0])],
        visited := [] } 0 = some out) ∧
    (["a:knows:b", "b:knows:a"].Nodup ∧
      ∀ k, k ∈ ["a:knows:b", "b:knows:a"] →
        k ∉ ({ recs := [(0, [("uid", Val.vs "a"), ("knows", Val.varr 10)]),
                 (1, [("uid", Val.vs "b"), ("knows", Val.varr 11)]),
                 (2, [("uid", Val.vs "a"), ("name", Val.vs "Alice"), ("knows", Val.varr 10)])],
               arrs := [(10, [RElem.erec 1]), (11, [RElem.erec 0])],
               visited := [] } : ESt).visited) := by
  refine ⟨(c5_expand_terminates [("a", 2)]
      { recs := [(0, [("uid", Val.vs "a"), ("knows", Val.varr 10)]),
                 (1, [("uid", Val.vs "b"), ("knows", Val.varr 11)]),
                 (2, [("uid", Val.vs "a"), ("name", Val.vs "Alice"), ("knows", Val.varr 10)])],
        arrs := [(10, [RElem.erec 1]), (11, [RElem.erec 0])],
        visited := [] } 0).1,
    (c5_expand_terminates [("a", 2)]
      { recs := [(0, [("uid", Val.vs "a"), ("knows", Val.varr 10)]),
                 (1, [("uid", Val.vs "b"), ("knows", Val.varr 11)]),
                 (2, [("uid", Val.vs "a"), ("name", Val.vs "Alice"), ("knows", Val.varr 10)])],
        arrs := [(10, [RElem.erec 1]), (11, [RElem.erec 0])],
        visited := [] } 0).2 3 _ _ (by rfl)⟩

/-! ## Transform preservation lemmas -/

theorem tpres_refl (st : TSt) : TPres st st :=
  ⟨fun _ _ hb => hb, fun hd => hd, fun hp => hp⟩

theorem tpres_trans (st1 st2 st3 : TSt) (p1 : TPres st1 st2) (p2 : TPres st2 st3) :
    TPres st1 st3 :=
  ⟨fun b ys hb => p2.1 b ys (p1.1 b ys hb),
   fun hd => p2.2.1 (p1.2.1 hd),
   fun hp => p2.2.2 (p1.2.2 hp)⟩

theorem tpres_of_eq (st st2 : TSt) (hm : st2.memo = st.memo) (hd : st2.dirty = st.dirty)
    (hp : st2.preds = st.preds) : TPres st st2 := by
  refine ⟨?_, ?_, ?_⟩
  · intro b ys hb
    rw [hm]
    exact hb
  · intro hcl ia
    unfold diffOf
    rw [hd]
    exact hcl ia
  · intro hcl q hq
    rw [hp] at hq
    exact hcl q hq

theorem trackFold_memo (f0 : Addr) : ∀ (l : List String) (st : TSt),
    (l.foldl (fun s fp => trackProperty s f0 fp) st).memo = st.memo := by
  intro l
  induction l with
  | nil => intro st; rfl
  | cons x l ih => intro st; exact ih (trackProperty st f0 x)

theorem trackFold_dirty (f0 : Addr) : ∀ (l : List String) (st : TSt),
    (l.foldl (fun s fp => trackProperty s f0 fp) st).dirty = st.dirty := by
  intro l
  induction l with
  | nil => intro st; rfl
  | cons x l ih => intro st; exact ih (trackProperty st f0 x)

theorem trackFold_preds (f0 : Addr) : ∀ (l : List String) (st : TSt),
    (l.foldl (fun s fp => trackProperty s f0 fp) st).preds = st.preds := by
  intro l
  induction l with
  | nil => intro st; rfl
  | cons x l ih => intro st; exact ih (trackProperty st f0 x)

theorem purgeInstance_dirtyClean (st : TSt) (ia : Addr) (hd : DirtyClean st) :
    DirtyClean (purgeInstance st ia) := by
  intro ia2
  unfold diffOf purgeInstance
  by_cases hia : ia = ia2
  · subst hia
    simp [lookA_setA_self]
  · simp only
    rw [lookA_setA_ne _ _ _ _ hia]
    exact hd ia2

theorem facetSetup_memo (st : TSt) (ia : Addr) (pm : PredMeta) (fprops : List String)
    (v : Addr) : (facetSetup st ia pm fprops v).memo = st.memo := by
  simp only [facetSetup, purgeInstance, trackFold_memo]
  split <;> rfl

theorem facetSetup_preds (st : TSt) (ia : Addr) (pm : PredMeta) (fprops : List String)
    (v : Addr) : (facetSetup st ia pm fprops v).preds = st.preds := by
  simp only [facetSetup, purgeInstance, trackFold_preds]
  split <;> rfl

theorem facetSetup_dirtyClean (st : TSt) (ia : Addr) (pm : PredMeta) (fprops : List String)
    (v : Addr) (hd : DirtyClean st) : DirtyClean (facetSetup st ia pm fprops v) := by
  simp only [facetSetup]
  apply purgeInstance_dirtyClean
  apply purgeInstance_dirtyClean
  intro ia2
  unfold diffOf
  rw [trackFold_dirty]
  split <;> exact hd ia2

theorem facetFold_memo (ia : Addr) (pm : PredMeta) (fprops : List String) :
    ∀ (xs : List Addr) (st : TSt),
      (xs.foldl (fun st v => facetSetup st ia pm fprops v) st).memo = st.memo := by
  intro xs
  induction xs with
  | nil => intro st; rfl
  | cons x xs ih =>
      intro st
      rw [List.foldl_cons, ih, facetSetup_memo]

theorem facetFold_preds (ia : Addr) (pm : PredMeta) (fprops : List String) :
    ∀ (xs : List Addr) (st : TSt),
      (xs.foldl (fun st v => facetSetup st ia pm fprops v) st).preds = st.preds := by
  intro xs
  induction xs with
  | nil => intro st; rfl
  | cons x xs ih =>
      intro st
      rw [List.foldl_cons, ih, facetSetup_preds]

theorem facetFold_dirtyClean (ia : Addr) (pm : PredMeta) (fprops : List String) :
    ∀ (xs : List Addr) (st : TSt), DirtyClean st →
      DirtyClean (xs.foldl (fun st v => facetSetup st ia pm fprops v) st) := by
  intro xs
  induction xs with
  | nil => intro st hd; exact hd
  | cons x xs ih =>
      intro st hd
      rw [List.foldl_cons]
      exact ih _ (facetSetup_dirtyClean st ia pm fprops x hd)

theorem setterAssign_tpres (reg : Reg) (st : TSt) (ia : Addr) (pm : PredMeta)
    (xs : List Addr) : TPres st (setterAssign reg st ia pm xs) := by
  refine ⟨?_, ?_, ?_⟩
  · intro b ys hb
    simp only [setterAssign]
    split
    case _ hni =>
      rw [facetFold_memo]
      exact hb
    case _ i hi =>
      show lookA (xs.foldl _ _ : TSt).memo b = some ys
      rw [facetFold_memo]
      exact hb
  · intro hd
    simp only [setterAssign]
    have hd1 : DirtyClean (xs.foldl (fun st v => facetSetup st ia pm
        ((lookA reg.facets (pm.facetCls.getD "")).getD []) v)
        { st with preds := (st.nextP, PredicateImpl.mk0 pm.propertyName ia xs) :: st.preds,
                  nextP := st.nextP + 1 }) := by
      apply facetFold_dirtyClean
      intro ia2
      exact hd ia2
    split
    case _ hni => exact hd1
    case _ i hi =>
      intro ia2
      unfold diffOf
      exact hd1 ia2
  · intro hp
    simp only [setterAssign]
    have hp1 : PredsClean (xs.foldl (fun st v => facetSetup st ia pm
        ((lookA reg.facets (pm.facetCls.getD "")).getD []) v)
        { st with preds := (st.nextP, PredicateImpl.mk0 pm.propertyName ia xs) :: st.preds,
                  nextP := st.nextP + 1 }) := by
      intro q hq
      rw [facetFold_preds] at hq
      rcases List.mem_cons.mp hq with hq | hq
      · subst hq
        rfl
      · exact hp q hq
    split
    case _ hni => exact hp1
    case _ i hi =>
      intro q hq
      exact hp1 q hq

theorem installAccessor_tpres (st : TSt) (ia : Addr) (propName : String) :
    TPres st (installAccessor st ia propName) := by
  apply tpres_of_eq <;> (simp only [installAccessor]; split <;> rfl)

theorem trackFold2_memo (ia : Addr) : ∀ (l : List (String × String)) (st : TSt),
    (l.foldl (fun st pr => trackProperty st ia pr.1) st).memo = st.memo := by
  intro l
  induction l with
  | nil => intro st; rfl
  | cons x l ih => intro st; exact ih (trackProperty st ia x.1)

theorem trackFold2_dirty (ia : Addr) : ∀ (l : List (String × String)) (st : TSt),
    (l.foldl (fun st pr => trackProperty st ia pr.1) st).dirty = st.dirty := by
  intro l
  induction l with
  | nil => intro st; rfl
  | cons x l ih => intro st; exact ih (trackProperty st ia x.1)

theorem trackFold2_preds (ia : Addr) : ∀ (l : List (String × String)) (st : TSt),
    (l.foldl (fun st pr => trackProperty st ia pr.1) st).preds = st.preds := by
  intro l
  induction l with
  | nil => intro st; rfl
  | cons x l ih => intro st; exact ih (trackProperty st ia x.1)

theorem trackProps_tpres (reg : Reg) (st : TSt) (ia : Addr) :
    TPres st (trackProps reg st ia) := by
  apply tpres_of_eq
  · simp only [trackProps]
    split
    · rfl
    · split
      · rfl
      · rw [trackFold2_memo]
  · simp only [trackProps]
    split
    · rfl
    · split
      · rfl
      · rw [trackFold2_dirty]
  · simp only [trackProps]
    split
    · rfl
    · split
      · rfl
      · rw [trackFold2_preds]

theorem mkInsts_frame (cls : String) (h : ESt) :
    ∀ (es : List RElem) (st : TSt),
      (mkInsts cls es h st).2.memo = st.memo ∧
      (mkInsts cls es h st).2.dirty = st.dirty ∧
      (mkInsts cls es h st).2.preds = st.preds := by
  intro es
  induction es with
  | nil => intro st; exact ⟨rfl, rfl, rfl⟩
  | cons e es ih =>
      intro st
      simp only [mkInsts]
      exact ih _

theorem predLoopPres (go : String → Addr → TSt → Option (List Addr × TSt)) (reg : Reg)
    (h : ESt) (ia : Addr) (e : RElem)
    (hgo : ∀ cls b st xs st2, go cls b st = some (xs, st2) → TPres st st2) :
    ∀ pl st st2, predLoop go reg h ia e pl st = some st2 → TPres st st2 := by
  intro pl
  induction pl with
  | nil =>
      intro st st2 hc
      simp only [predLoop] at hc
      cases hc
      exact tpres_refl st
  | cons pm pl ih =>
      intro st st2 hc
      simp only [predLoop] at hc
      split at hc
      case _ hrf =>
        exact tpres_trans _ _ _ (installAccessor_tpres st ia pm.propertyName) (ih _ _ hc)
      case _ v hrf =>
        split at hc
        · split at hc
          case _ b =>
            split at hc
            case _ hcall =>
              cases hc
            case _ xs st3 hcall =>
              refine tpres_trans _ _ _ (installAccessor_tpres st ia pm.propertyName) ?_
              refine tpres_trans _ _ _ (hgo _ _ _ _ _ hcall) ?_
              refine tpres_trans _ _ _ (setterAssign_tpres reg st3 ia pm xs) (ih _ _ hc)
          case _ hnv =>
            cases hc
        · exact tpres_trans _ _ _ (installAccessor_tpres st ia pm.propertyName) (ih _ _ hc)

theorem instLoopPres (go : String → Addr → TSt → Option (List Addr × TSt)) (reg : Reg)
    (h : ESt)
    (hgo : ∀ cls b st xs st2, go cls b st = some (xs, st2) → TPres st st2) :
    ∀ ps st st2, instLoop go reg h ps st = some st2 → TPres st st2 := by
  intro ps
  induction ps with
  | nil =>
      intro st st2 hc
      simp only [instLoop] at hc
      cases hc
      exact tpres_refl st
  | cons p rest ih =>
      intro st st2 hc
      simp only [instLoop] at hc
      split at hc
      case _ hnp =>
        exact tpres_trans _ _ _ (trackProps_tpres reg st p.1) (ih _ _ hc)
      case _ pl hpl =>
        split at hc
        case _ hcall =>
          cases hc
        case _ st3 hcall =>
          refine tpres_trans _ _ _ (trackProps_tpres reg st p.1) ?_
          exact tpres_trans _ _ _
            (predLoopPres go reg h p.1 p.2 hgo pl _ _ hcall) (ih _ _ hc)

theorem executorPres (reg : Reg) (h : ESt) :
    ∀ f cls a st xs st2, plainToClassExecutor reg h f cls a st = some (xs, st2) →
      TPres st st2 := by
  intro f
  induction f with
  | zero =>
      intro cls a st xs st2 hc
      simp [plainToClassExecutor] at hc
  | succ f ih =>
      intro cls a st xs st2 hc
      simp only [plainToClassExecutor] at hc
      split at hc
      case _ xs0 hmemo =>
        cases hc
        exact tpres_refl st
      case _ hmemo =>
        split at hc
        case _ hcall =>
          cases hc
        case _ st3 hcall =>
          simp only [Option.some.injEq, Prod.mk.injEq] at hc
          obtain ⟨hxs, hst⟩ := hc
          subst hst
          have hks := mkInsts_frame cls h (arrElems h a) st
          refine tpres_trans _ _ _ ?_ (instLoopPres _ reg h
            (fun cls2 b st xs st2 hcc => ih cls2 b st xs st2 hcc) _ _ _ hcall)
          refine ⟨?_, ?_, ?_⟩
          · intro b ys hb
            show lookA ((a, (mkInsts cls (arrElems h a) h st).1) ::
              (mkInsts cls (arrElems h a) h st).2.memo) b = some ys
            by_cases hba : a = b
            · subst hba
              rw [hb] at hmemo
              cases hmemo
            · simp only [lookA]
              rw [if_neg hba, hks.1]
              exact hb
          · intro hd ia2
            unfold diffOf
            show (lookA (mkInsts cls (arrElems h a) h st).2.dirty ia2).getD [] = []
            rw [hks.2.1]
            exact hd ia2
          · intro hp q hq
            show PredicateImpl.getDiff q.2 = []
            have : q ∈ (mkInsts cls (arrElems h a) h st).2.preds := hq
            rw [hks.2.2] at this
            exact hp q this

theorem executorRecords (reg : Reg) (h : ESt) (f : Nat) (cls : String) (a : Addr)
    (st : TSt) (xs : List Addr) (st2 : TSt)
    (hc : plainToClassExecutor reg h f cls a st = some (xs, st2)) :
    lookA st2.memo a = some xs := by
  cases f with
  | zero => simp [plainToClassExecutor] at hc
  | succ f =>
      simp only [plainToClassExecutor] at hc
      split at hc
      case _ xs0 hmemo =>
        cases hc
        exact hmemo
      case _ hmemo =>
        split at hc
        case _ hcall =>
          cases hc
        case _ st3 hcall =>
          simp only [Option.some.injEq, Prod.mk.injEq] at hc
          obtain ⟨hxs, hst⟩ := hc
          subst hst
          subst hxs
          have hpres := instLoopPres _ reg h
            (fun cls2 b st xs st2 hcc => executorPres reg h f cls2 b st xs st2 hcc) _ _ _ hcall
          apply hpres.1
          show lookA ((a, (mkInsts cls (arrElems h a) h st).1) ::
            (mkInsts cls (arrElems h a) h st).2.memo) a
              = some (mkInsts cls (arrElems h a) h st).1
          simp [lookA]

theorem purgeFold_dirtyClean : ∀ (l : List Addr) (st : TSt), DirtyClean st →
    DirtyClean (l.foldl purgeInstance st) := by
  intro l
  induction l with
  | nil => intro st hd; exact hd
  | cons x l ih =>
      intro st hd
      rw [List.foldl_cons]
      exact ih _ (purgeInstance_dirtyClean st x hd)

theorem purgeFold_preds : ∀ (l : List Addr) (st : TSt),
    (l.foldl purgeInstance st).preds = st.preds := by
  intro l
  induction l with
  | nil => intro st; rfl
  | cons x l ih =>
      intro st
      rw [List.foldl_cons, ih]
      rfl

/-! ## C1: raw-array-identity memoisation -/

/-- C1: the transform consults the memo table keyed by raw-array identity
before converting: a hit returns the already-produced instance array with
the world unchanged, so no second instance array is ever produced for that
raw array; and any successful conversion records its result in the memo
table while preserving every existing entry, so two positions holding the
identical raw-array reference receive the identical instance array. -/
theorem c1_raw_array_memoisation (reg : Reg) (h : ESt) (f : Nat) (cls : String)
    (a : Addr) (st : TSt) :
    (∀ xs, lookA st.memo a = some xs →
      plainToClassExecutor reg h (f + 1) cls a st = some (xs, st)) ∧
    (∀ xs st2, plainToClassExecutor reg h f cls a st = some (xs, st2) →
      lookA st2.memo a = some xs ∧
      ∀ b ys, lookA st.memo b = some ys → lookA st2.memo b = some ys) := by
  constructor
  · intro xs hmemo
    simp only [plainToClassExecutor]
    rw [hmemo]
  · intro xs st2 hc
    exact ⟨executorRecords reg h f cls a st xs st2 hc,
      fun b ys hb => (executorPres reg h f cls a st xs st2 hc).1 b ys hb⟩

/-- Witness for C1: a memo hit at address 5 returns the cached array with
the world unchanged, and a fresh conversion of array 9 records its result
while keeping the entry for 5. -/
theorem c1_raw_array_memoisation_witness :
    (plainToClassExecutor { properties := [], predicates := [], facets := [] }
      { recs := [(1, [("uid", Val.vs "b")])], arrs := [(9, [RElem.erec 1])], visited := [] }
      1 "A" 5
      { insts := [], preds := [], memo := [(5, [7])], tracked := [], dirty := [],
        fstore := [], nextI := 0, nextP := 0 }
      = some ([7],
        { insts := [], preds := [], memo := [(5, [7])], tracked := [], dirty := [],
          fstore := [], nextI := 0, nextP := 0 })) ∧
    (∃ xs st2, plainToClassExecutor { properties := [], predicates := [], facets := [] }
      { recs := [(1, [("uid", Val.vs "b")])], arrs := [(9, [RElem.erec 1])], visited := [] }
      2 "A" 9
      { insts := [], preds := [], memo := [(5, [7])], tracked := [], dirty := [],
        fstore := [], nextI := 0, nextP := 0 }
      = some (xs, st2) ∧
      lookA st2.memo 9 = some xs ∧ lookA st2.memo 5 = some [7]) := by
  constructor
  · exact (c1_raw_array_memoisation { properties := [], predicates := [], facets := [] }
      { recs := [(1, [("uid", Val.vs "b")])], arrs := [(9, [RElem.erec 1])], visited := [] }
      0 "A" 5
      { insts := [], preds := [], memo := [(5, [7])], tracked := [], dirty := [],
        fstore := [], nextI := 0, nextP := 0 }).1 [7] rfl
  · refine ⟨_, _, rfl, ?_, ?_⟩
    · exact ((c1_raw_array_memoisation { properties := [], predicates := [], facets := [] }
        { recs := [(1, [("uid", Val.vs "b")])], arrs := [(9, [RElem.erec 1])], visited := [] }
        2 "A" 9
        { insts := [], preds := [], memo := [(5, [7])], tracked := [], dirty := [],
          fstore := [], nextI := 0, nextP := 0 }).2 _ _ rfl).1
    · exact ((c1_raw_array_memoisation { properties := [], predicates := [], facets := [] }
        { recs := [(1, [("uid", Val.vs "b")])], arrs := [(9, [RElem.erec 1])], visited := [] }
        2 "A" 9
        { insts := [], preds := [], memo := [(5, [7])], tracked := [], dirty := [],
          fstore := [], nextI := 0, nextP := 0 }).2 _ _ rfl).2 5 [7] rfl

/-! ## C2: clean diff baseline after build -/

/-- C2: whatever raw data and resource index a successful `build` run
consumed, every instance of the resulting world (roots, nested predicate
elements and facet instances alike) reports an empty scalar diff, and every
predicate collection installed during the load reports an empty added set.
During the load every plain-field write happens at instance creation,
before tracking is installed on that instance; collections are created with
fresh empty added sets; and each instance is purged after its predicate
wiring, the roots once more at the end. -/
theorem c2_clean_baseline (reg : Reg) (cls : String) (jsonA : Addr)
    (res : List (String × Addr)) (fE fT : Nat) (h : ESt) (roots : List Addr) (st : TSt)
    (hb : ObjectMapperBuilder.build reg cls jsonA res fE fT h = some (roots, st)) :
    (∀ ia, diffOf st ia = []) ∧
    (∀ q, q ∈ st.preds → PredicateImpl.getDiff q.2 = []) := by
  simp only [ObjectMapperBuilder.build] at hb
  split at hb
  case _ hexp =>
    cases hb
  case _ h1 hexp =>
    split at hb
    case _ hcall =>
      cases hb
    case _ roots0 st0 hcall =>
      simp only [Option.some.injEq, Prod.mk.injEq] at hb
      obtain ⟨hr, hst⟩ := hb
      subst hr
      subst hst
      simp only [transform] at hcall
      have hpres := executorPres reg h1 fT cls jsonA _ roots0 st0 hcall
      have hd0 : DirtyClean st0 := hpres.2.1 (fun ia => rfl)
      have hp0 : PredsClean st0 := hpres.2.2 (fun q hq => by simp [initTSt] at hq)
      constructor
      · exact purgeFold_dirtyClean roots0 st0 hd0
      · intro q hq
        rw [purgeFold_preds] at hq
        exact hp0 q hq

/-- Witness for C2: a concrete successful build of one root with one scalar
property; the resulting world is diff-clean. -/
theorem c2_clean_baseline_witness :
    ∃ roots st, ObjectMapperBuilder.build
      { properties := [("A", [("name", "A.name")])], predicates := [], facets := [] }
      "A" 0 []
      1 1
      { recs := [(1, [("uid", Val.vs "x1"), ("name", Val.vs "zed")])],
        arrs := [(0, [RElem.erec 1])], visited := [] }
      = some (roots, st) ∧
      (∀ ia, diffOf st ia = []) ∧
      (∀ q, q ∈ st.preds → PredicateImpl.getDiff q.2 = []) := by
  have hres := c2_clean_baseline
    { properties := [("A", [("name", "A.name")])], predicates := [], facets := [] }
    "A" 0 [] 1 1
    { recs := [(1, [("uid", Val.vs "x1"), ("name", Val.vs "zed")])],
      arrs := [(0, [RElem.erec 1])], visited := [] } _ _ rfl
  exact ⟨_, _, rfl, hres⟩
